import Mathlib

set_option maxRecDepth 100000

/-!
# Verification of `analyze_expenses_v2.py`

Shallow embedding of the location-parsing rule engine and the
aggregation/summary pipeline of `analyze_expenses_v2.py`.

Modelling conventions:
* A raw `Location` cell is `Option String`; `none` models a missing value
  (`pd.isna(loc)` true).  Any present cell is modelled by its string form.
* Monetary amounts are exact rationals `ℚ` in place of IEEE doubles; the
  pipeline only adds, divides and rounds small decimal values, and the
  spec notion of "floating-point tolerance" is exact (0) in this model.  Where the float
  special values matter (NaN from `pd.to_numeric(errors="coerce")`, the
  results of dividing by a zero grand total) they are modelled explicitly
  by the `PdFloat` type below.
* Python whitespace (`str.strip()`, `\s` of `re`) is modelled by the six
  ASCII whitespace characters; `str.lower()` by ASCII lowercasing — the
  ledger data is ASCII.
* `Series.sort_values(ascending=False)` is modelled as pandas implements
  it (`nargsort`): an ascending argsort followed by reversing the whole
  order.  The argsort uses the numpy default introsort, which sorts
  ranges of at most 16 elements by stable insertion sort but leaves the
  relative order of exactly equal values implementation-defined on longer
  arrays.  The model uses a stable insertion sort throughout, so it
  coincides with the program on series of at most 16 groups; every
  theorem below that asserts a tie order carries an explicit bound on
  the group count, while value order, membership and sums are
  independent of the argsort permutation.
-/

/-- The whitespace characters of the Python `str.strip()` / `re` `\s` (ASCII). -/
def pyIsSpace (c : Char) : Bool :=
  c = ' ' || c = '\t' || c = '\n' || c = '\r' || c = '\x0b' || c = '\x0c'

/-- Accumulator-style tokenizer: splits a character list on whitespace runs,
dropping empty tokens, as the Python `str.split()` does. -/
def tokWsAux : List Char → List Char → List (List Char)
  | [], cur => if cur.isEmpty then [] else [cur.reverse]
  | c :: cs, cur =>
    if pyIsSpace c then
      if cur.isEmpty then tokWsAux cs [] else cur.reverse :: tokWsAux cs []
    else tokWsAux cs (c :: cur)

/-- Python `s.split()` (split on whitespace, no empty tokens). -/
def pyWords (s : String) : List String :=
  (tokWsAux s.toList []).map String.mk

/-- Python `" ".join(ws)`. -/
def joinWords : List String → String
  | [] => ""
  | [w] => w
  | w :: rest => w ++ " " ++ joinWords rest

/-- `re.sub(r"\s+", " ", str(loc).strip())`: trim and collapse every
whitespace run to a single space. -/
def normalizeWs (s : String) : String :=
  joinWords (pyWords s)

/-- Python `str.lower()` (ASCII). -/
def strLower (s : String) : String :=
  String.mk (s.toList.map Char.toLower)

/-- Python `s.startswith(pre)`. -/
def lstartsWith (s pre : String) : Bool :=
  pre.toList.isPrefixOf s.toList

/-- Python `s[n:]` (slice from character index `n`). -/
def strDrop (s : String) (n : Nat) : String :=
  String.mk (s.toList.drop n)

/-- Python `s.strip(chars)` for a character class `p`: remove matching
characters from both ends. -/
def stripChars (p : Char → Bool) (s : String) : String :=
  String.mk (((s.toList.dropWhile p).reverse.dropWhile p).reverse)

/-- The character class of Python `strip(" ,-_")`. -/
def sepChar (c : Char) : Bool :=
  c = ' ' || c = ',' || c = '-' || c = '_'

/-- Python `s.strip()` (default whitespace strip). -/
def pyStrip (s : String) : String :=
  stripChars pyIsSpace s

/-- Python `c in s` for a single character. -/
def strContains (s : String) (c : Char) : Bool :=
  s.toList.contains c

/-- Split at the first character satisfying `p`: Python
`s.split(sep, 1)` / `re.split(cls, s, maxsplit=1)` when a separator occurs. -/
def splitFirstAux (p : Char → Bool) : List Char → Option (List Char × List Char)
  | [] => none
  | c :: cs =>
    if p c then some ([], cs)
    else
      match splitFirstAux p cs with
      | some (l, r) => some (c :: l, r)
      | none => none

/-- Split a string once at the first character in class `p`. -/
def splitFirst (p : Char → Bool) (s : String) : Option (String × String) :=
  match splitFirstAux p s.toList with
  | some (l, r) => some (String.mk l, String.mk r)
  | none => none

/-- Python `s or "Unknown"` on strings: empty string falls back. -/
def orUnknown (s : String) : String :=
  if s = "" then "Unknown" else s

/-- The part of `re.match(r"(?i)(dupoint|dupont)\s+lounge\s*(.*)", s)` after
the brand alternative: requires at least one whitespace character, then
`lounge` case-insensitively, then skips whitespace greedily; the capture
group `(.*)` stops at a newline. Returns the text of group 2. -/
def dupAfterBrand (rest : List Char) : Option (List Char) :=
  let ws := rest.takeWhile pyIsSpace
  let r1 := rest.dropWhile pyIsSpace
  if ws.isEmpty then none
  else if ("lounge".toList).isPrefixOf (r1.map Char.toLower) then
    some (((r1.drop 6).dropWhile pyIsSpace).takeWhile (fun c => c ≠ '\n'))
  else none

/-- `re.match(r"(?i)(dupoint|dupont)\s+lounge\s*(.*)", s)`, returning the
text of capture group 2 when the pattern matches. -/
def dupRegexMatch (s : String) : Option String :=
  let cs := s.toList
  let lcs := cs.map Char.toLower
  if ("dupoint".toList).isPrefixOf lcs then
    (dupAfterBrand (cs.drop 7)).map String.mk
  else if ("dupont".toList).isPrefixOf lcs then
    (dupAfterBrand (cs.drop 6)).map String.mk
  else none

/-- `parse_location(loc)` of `analyze_expenses_v2.py`: derive
`(merchant, area)` from a free-text `Location` value (`none` = `NaN`). -/
def parse_location (loc : Option String) : String × String :=
  match loc with
  | none => ("Unknown", "Unknown")
  | some raw =>
    let s := normalizeWs raw
    let lower := strLower s
    if lstartsWith lower "shell" then
      ("Shell", orUnknown (stripChars sepChar (strDrop s 5)))
    else if lstartsWith lower "total" then
      ("Total", orUnknown (stripChars sepChar (strDrop s 5)))
    else if lstartsWith lower "home" then
      let area :=
        match splitFirst (fun c => c = '_' || c = '-') s with
        | some (_, r) => pyStrip r
        | none => stripChars sepChar (strDrop s 4)
      ("Home", orUnknown area)
    else if lstartsWith lower "love dale butchery" || lstartsWith lower "love dale" then
      let area :=
        if strContains s '_' then
          match splitFirst (fun c => c = '_') s with
          | some (_, r) => pyStrip r
          | none => ""
        else stripChars sepChar (strDrop s 18)
      ("Love Dale Butchery", orUnknown area)
    else if lstartsWith lower "dupoint" || lstartsWith lower "dupont" then
      let area :=
        match dupRegexMatch s with
        | some g2 => pyStrip g2
        | none => ""
      ("Dupoint Lounge", orUnknown area)
    else if lstartsWith lower "greenview" then
      ("Greenview Restaurant", orUnknown (stripChars sepChar (strDrop s 9)))
    else if lstartsWith lower "fish pit hub" then
      ("Fish Pit Hub", orUnknown (stripChars sepChar (strDrop s 12)))
    else if lstartsWith lower "junction pizza inn" then
      ("Pizza Inn", "Junction Mall")
    else if lstartsWith lower "junction mall" then
      ("Junction Mall", "Junction Mall")
    else if lstartsWith lower "leofresh" then
      ("LeoFresh", orUnknown (stripChars sepChar (strDrop s 8)))
    else if lstartsWith lower "nairobi chapel" then
      ("Nairobi Chapel", orUnknown (stripChars sepChar (strDrop s 14)))
    else if lstartsWith lower "karura forest" then
      ("Karura Forest", "Karura")
    else if lstartsWith lower "rockwell" then
      ("Rockwell Service Station", orUnknown (stripChars sepChar (strDrop s 8)))
    else if lstartsWith lower "kisii" then
      ("Kisii Contribution", "Kisii")
    else if lstartsWith lower "naivasha road" then
      ("Naivasha Road", "Naivasha Road")
    else if strContains s '_' then
      match splitFirst (fun c => c = '_') s with
      | some (l, r) => (orUnknown (pyStrip l), orUnknown (pyStrip r))
      | none => (s, "Unknown")
    else
      let words := pyWords s
      if words.length ≤ 2 then (s, "Unknown")
      else (joinWords (words.take 2), orUnknown (joinWords (words.drop 2)))

/-! ## Ledger construction (`main`, lines 140–144) -/

/-- A raw `Amount` cell as read from the spreadsheet: a numeric cell, a
missing cell (`NaN`), or a text cell. -/
inductive PdCell where
  | num : ℚ → PdCell
  | empty : PdCell
  | text : String → PdCell
deriving DecidableEq

/-- A pandas float64 value with its special values made explicit. -/
inductive PdFloat where
  | finite : ℚ → PdFloat
  | nan : PdFloat
  | inf : PdFloat
  | neginf : PdFloat
deriving DecidableEq

/-- Digit-string value. -/
def digitsToNat (cs : List Char) : Nat :=
  cs.foldl (fun a c => a * 10 + (c.toNat - 48)) 0

/-- All characters are decimal digits. -/
def allDigits (cs : List Char) : Bool :=
  cs.all Char.isDigit

/-- `10 ^ n` in `ℚ` as an explicit iterated product (kept first-order so
that concrete text cells evaluate inside the kernel). -/
def pow10 : Nat → ℚ
  | 0 => 1
  | n + 1 => 10 * pow10 n

/-- Decimal mantissa of a numeric string: a digit run with an optional
fractional part, at least one digit on one side of the dot. -/
def parseMantissa (cs : List Char) : Option ℚ :=
  match splitFirstAux (fun c => c = '.') cs with
  | none =>
    if cs ≠ [] ∧ allDigits cs then some (digitsToNat cs) else none
  | some (ip, fp) =>
    if (ip ≠ [] ∨ fp ≠ []) ∧ allDigits ip ∧ allDigits fp then
      some ((digitsToNat ip : ℚ) + (digitsToNat fp : ℚ) / pow10 fp.length)
    else none

/-- Exponent of a numeric string, after the `e`/`E`: an optional sign and
a nonempty digit run. -/
def parseExpPart (cs : List Char) : Option ℤ :=
  match cs with
  | '+' :: ds => if ds ≠ [] ∧ allDigits ds then some ((digitsToNat ds : ℤ)) else none
  | '-' :: ds => if ds ≠ [] ∧ allDigits ds then some (-(digitsToNat ds : ℤ)) else none
  | ds => if ds ≠ [] ∧ allDigits ds then some ((digitsToNat ds : ℤ)) else none

/-- Scale a mantissa by a signed power of ten. -/
def applyExp (q : ℚ) (e : ℤ) : ℚ :=
  if 0 ≤ e then q * pow10 e.toNat else q / pow10 (-e).toNat

/-- The numeric-text recognition of `pd.to_numeric` (the pandas
`floatify` parser): strip whitespace, then an optional sign followed by
either `inf`/`infinity` (case-insensitive, a signed infinity) or a
decimal mantissa with an optional `e`/`E` exponent (scientific
notation).  Anything else is unparseable and coerces to `NaN`. -/
def parseFloatText (s : String) : Option PdFloat :=
  let cs := (pyStrip s).toList
  let sb : Bool × List Char :=
    match cs with
    | '-' :: rest => (true, rest)
    | '+' :: rest => (false, rest)
    | _ => (false, cs)
  let low := sb.2.map Char.toLower
  if low = "inf".toList ∨ low = "infinity".toList then
    some (if sb.1 then PdFloat.neginf else PdFloat.inf)
  else
    let me : List Char × Option (List Char) :=
      match splitFirstAux (fun c => c = 'e' || c = 'E') sb.2 with
      | none => (sb.2, none)
      | some (m, ex) => (m, some ex)
    match parseMantissa me.1 with
    | none => none
    | some q =>
      let signed := if sb.1 then -q else q
      match me.2 with
      | none => some (PdFloat.finite signed)
      | some ecs =>
        match parseExpPart ecs with
        | none => none
        | some e => some (PdFloat.finite (applyExp signed e))

/-- `pd.to_numeric(col, errors="coerce")` on one cell: numbers pass
through, missing cells stay `NaN`, text is parsed by `floatify` — which
can yield a signed infinity — or coerced to `NaN`. -/
def to_numeric_coerce : PdCell → PdFloat
  | .num q => .finite q
  | .empty => .nan
  | .text s =>
    match parseFloatText s with
    | some v => v
    | none => .nan

/-- `.fillna(0)` on one value. -/
def fillna0 : PdFloat → PdFloat
  | .nan => .finite 0
  | v => v

/-- Read a pandas value back as the rational amount of the transaction
model: finite values pass through, the special values fall to 0.  After
`fillna0` no `NaN` remains, but an amount text parsing to a signed
infinity does reach this map (see the C9 theorems); the ledger-level
claims quantify over transactions with rational amounts, the shape the
spec gives the enriched data. -/
def pdToRat : PdFloat → ℚ
  | .finite q => q
  | _ => 0

/-- `pd.to_numeric(..., errors="coerce").fillna(0)` on one `Amount` cell. -/
def coerceAmount (c : PdCell) : ℚ :=
  pdToRat (fillna0 (to_numeric_coerce c))

/-- One raw spreadsheet row.  `month` is the `YYYY-MM` label that
`df["Date"].dt.to_period("M").astype(str)` derives from the parsed date;
date parsing itself is outside the embedded core. -/
structure RawRow where
  month : String
  rtype : String
  payment : String
  location : Option String
  amountCell : PdCell

/-- An enriched transaction: one row of `df` after lines 141–144. -/
structure Txn where
  month : String
  ttype : String
  payment : String
  merchant : String
  area : String
  amount : ℚ
deriving DecidableEq

/-- Enrichment of one row: coerce the amount and attach the parsed
`(Merchant, Area)` and the month label. -/
def enrich (r : RawRow) : Txn :=
  { month := r.month
    ttype := r.rtype
    payment := r.payment
    merchant := (parse_location r.location).1
    area := (parse_location r.location).2
    amount := coerceAmount r.amountCell }

/-- The enriched ledger. -/
def buildLedger (rows : List RawRow) : List Txn :=
  rows.map enrich

/-! ## Aggregation (`main`, lines 146–157, 240–262)

`df.groupby(k)["Amount"].sum()` sorts the group keys ascending
(`sort=True` is the pandas default) and sums each group in row order.
`sort_values(ascending=False)` is a stable ascending argsort followed by a
reversal (pandas `nargsort`); `sort_index()` sorts ascending by key. -/

/-- Lexicographic strict order on character lists by code point: the
string comparison Python (and hence the pandas key sort) uses. -/
def lexLtCh : List Char → List Char → Bool
  | [], [] => false
  | [], _ :: _ => true
  | _ :: _, [] => false
  | a :: as, b :: bs =>
    if a.toNat < b.toNat then true
    else if b.toNat < a.toNat then false
    else lexLtCh as bs

/-- Python `a < b` on strings. -/
def strLtB (a b : String) : Bool :=
  lexLtCh a.toList b.toList

/-- Python `a <= b` on strings. -/
def strLeB (a b : String) : Bool :=
  !(strLtB b a)

theorem char_eq_of_toNat_eq {a b : Char} (h : a.toNat = b.toNat) : a = b := by
  apply Char.eq_of_val_eq
  apply UInt32.eq_of_val_eq
  apply Fin.eq_of_val_eq
  exact h

theorem lexLtCh_irrefl : ∀ a, lexLtCh a a = false := by
  intro a
  induction a with
  | nil => rfl
  | cons c cs ih => simp [lexLtCh, ih]

theorem lexLtCh_trans :
    ∀ {a b c : List Char}, lexLtCh a b = true → lexLtCh b c = true → lexLtCh a c = true := by
  intro a
  induction a with
  | nil =>
    intro b c hab hbc
    cases b with
    | nil => simp [lexLtCh] at hab
    | cons y ys =>
      cases c with
      | nil => simp [lexLtCh] at hbc
      | cons z zs => simp [lexLtCh]
  | cons x xs ih =>
    intro b c hab hbc
    cases b with
    | nil => simp [lexLtCh] at hab
    | cons y ys =>
      cases c with
      | nil => simp [lexLtCh] at hbc
      | cons z zs =>
        simp only [lexLtCh] at hab hbc ⊢
        by_cases h1 : x.toNat < y.toNat
        · rw [if_pos h1] at hab
          by_cases h2 : y.toNat < z.toNat
          · rw [if_pos (Nat.lt_trans h1 h2)]
          · rw [if_neg h2] at hbc
            by_cases h3 : z.toNat < y.toNat
            · rw [if_pos h3] at hbc
              exact absurd hbc (by simp)
            · rw [if_pos (show x.toNat < z.toNat by omega)]
        · rw [if_neg h1] at hab
          by_cases h1b : y.toNat < x.toNat
          · rw [if_pos h1b] at hab
            exact absurd hab (by simp)
          · rw [if_neg h1b] at hab
            by_cases h2 : y.toNat < z.toNat
            · rw [if_pos (show x.toNat < z.toNat by omega)]
            · rw [if_neg h2] at hbc
              by_cases h3 : z.toNat < y.toNat
              · rw [if_pos h3] at hbc
                exact absurd hbc (by simp)
              · rw [if_neg h3] at hbc
                rw [if_neg (show ¬ x.toNat < z.toNat by omega),
                  if_neg (show ¬ z.toNat < x.toNat by omega)]
                exact ih hab hbc

theorem lexLtCh_connex :
    ∀ a b : List Char, lexLtCh a b = false → lexLtCh b a = false → a = b := by
  intro a
  induction a with
  | nil =>
    intro b hab _
    cases b with
    | nil => rfl
    | cons y ys => simp [lexLtCh] at hab
  | cons x xs ih =>
    intro b hab hba
    cases b with
    | nil => simp [lexLtCh] at hba
    | cons y ys =>
      simp only [lexLtCh] at hab hba
      by_cases h1 : x.toNat < y.toNat
      · rw [if_pos h1] at hab
        exact absurd hab (by simp)
      · by_cases h2 : y.toNat < x.toNat
        · rw [if_pos h2] at hba
          exact absurd hba (by simp)
        · rw [if_neg h1, if_neg h2] at hab
          rw [if_neg h2, if_neg h1] at hba
          have hxy : x = y := char_eq_of_toNat_eq (by omega)
          rw [hxy, ih ys hab hba]

theorem lexLtCh_asymm {a b : List Char} (h : lexLtCh a b = true) : lexLtCh b a = false := by
  by_contra hba
  rw [Bool.not_eq_false] at hba
  have h2 := lexLtCh_trans h hba
  rw [lexLtCh_irrefl] at h2
  exact Bool.noConfusion h2

/-- Insert one `(key, amount)` observation into a key-sorted running
aggregation, adding to the sum of the key if the key is already present. -/
def insertGrouped (k : String) (v : ℚ) : List (String × ℚ) → List (String × ℚ)
  | [] => [(k, v)]
  | (k2, v2) :: rest =>
    if k = k2 then (k2, v2 + v) :: rest
    else if strLtB k k2 then (k, v) :: (k2, v2) :: rest
    else (k2, v2) :: insertGrouped k v rest

/-- `df.groupby(key)["Amount"].sum()`: key-ascending list of group sums. -/
def groupbySum (pairs : List (String × ℚ)) : List (String × ℚ) :=
  pairs.foldl (fun acc p => insertGrouped p.1 p.2 acc) []

/-- Comparison by summed amount. -/
def byVal (a b : String × ℚ) : Prop := a.2 ≤ b.2

instance : DecidableRel byVal := fun a b => inferInstanceAs (Decidable (a.2 ≤ b.2))

instance : IsTotal (String × ℚ) byVal := ⟨fun a b => le_total a.2 b.2⟩

instance : IsTrans (String × ℚ) byVal := ⟨fun _ _ _ h1 h2 => le_trans h1 h2⟩

/-- Comparison by group key (Python string order). -/
def byKey (a b : String × ℚ) : Prop := strLeB a.1 b.1 = true

instance : DecidableRel byKey := fun a b => inferInstanceAs (Decidable (strLeB a.1 b.1 = true))

instance : IsTotal (String × ℚ) byKey :=
  ⟨fun a b => by
    unfold byKey strLeB strLtB
    cases h : lexLtCh b.1.toList a.1.toList with
    | false => exact Or.inl rfl
    | true => exact Or.inr (by rw [lexLtCh_asymm h]; rfl)⟩

instance : IsTrans (String × ℚ) byKey :=
  ⟨fun a b c h1 h2 => by
    unfold byKey strLeB strLtB at h1 h2 ⊢
    rw [Bool.not_eq_true'] at h1 h2 ⊢
    by_contra hca
    rw [Bool.not_eq_false] at hca
    cases hab : lexLtCh a.1.toList b.1.toList with
    | true =>
      have h3 := lexLtCh_trans hca hab
      rw [h3] at h2
      exact Bool.noConfusion h2
    | false =>
      have hA := lexLtCh_connex _ _ hab h1
      rw [hA] at hca
      rw [hca] at h2
      exact Bool.noConfusion h2⟩

/-- `Series.sort_values(ascending=False)` (pandas `nargsort`): an
ascending argsort followed by reversing the whole order.  The argsort is
the numpy default introsort: it sorts ranges of at most 16 elements by
stable insertion sort but leaves the relative order of exactly equal
values implementation-defined on longer arrays.  The model uses a stable
insertion sort throughout, so it coincides with the program on series of
at most 16 groups; theorems asserting a tie order therefore carry an
explicit bound on the group count, while value order, membership and
sums hold for any argsort permutation. -/
def sortValuesDesc (xs : List (String × ℚ)) : List (String × ℚ) :=
  (List.insertionSort byVal xs).reverse

/-- `Series.sort_index()`: ascending sort by key. -/
def sortIndexAsc (xs : List (String × ℚ)) : List (String × ℚ) :=
  List.insertionSort byKey xs

/-- `Series.idxmax` together with `max`: the first entry (in index order)
attaining the maximum value. -/
def idxmaxP : List (String × ℚ) → Option (String × ℚ)
  | [] => none
  | x :: rest =>
    match idxmaxP rest with
    | none => some x
    | some b => if x.2 < b.2 then some b else some x

/-- `Series.idxmin` together with `min`: the first entry (in index order)
attaining the minimum value. -/
def idxminP : List (String × ℚ) → Option (String × ℚ)
  | [] => none
  | x :: rest =>
    match idxminP rest with
    | none => some x
    | some b => if b.2 < x.2 then some b else some x

/-- `float(df["Amount"].sum())`: the grand total. -/
def totalAmt (l : List Txn) : ℚ :=
  (l.map Txn.amount).sum

/-- The `(key, Amount)` column pair fed to one grouping pass. -/
def pairsBy (key : Txn → String) (l : List Txn) : List (String × ℚ) :=
  l.map fun t => (key t, t.amount)

/-- `monthly = df.groupby("Month")["Amount"].sum().sort_index()`. -/
def monthlyAgg (l : List Txn) : List (String × ℚ) :=
  sortIndexAsc (groupbySum (pairsBy Txn.month l))

/-- `type_tot = df.groupby("Type")["Amount"].sum().sort_values(ascending=False)`. -/
def typeAgg (l : List Txn) : List (String × ℚ) :=
  sortValuesDesc (groupbySum (pairsBy Txn.ttype l))

/-- `pay_tot`, grouped by `Payment type`. -/
def payAgg (l : List Txn) : List (String × ℚ) :=
  sortValuesDesc (groupbySum (pairsBy Txn.payment l))

/-- `merch_tot`, grouped by derived `Merchant`. -/
def merchAgg (l : List Txn) : List (String × ℚ) :=
  sortValuesDesc (groupbySum (pairsBy Txn.merchant l))

/-- `area_tot`, grouped by derived `Area`. -/
def areaAgg (l : List Txn) : List (String × ℚ) :=
  sortValuesDesc (groupbySum (pairsBy Txn.area l))

/-- `merch_tot.head(10)`: the `top_merchants` list of the summary. -/
def top_merchants (l : List Txn) : List (String × ℚ) :=
  (merchAgg l).take 10

/-- `area_tot.head(10)`: the `top_areas` list of the summary. -/
def top_areas (l : List Txn) : List (String × ℚ) :=
  (areaAgg l).take 10

/-- `monthly.idxmax()`: the `highest_month` KPI. -/
def highest_month (l : List Txn) : Option String :=
  (idxmaxP (monthlyAgg l)).map Prod.fst

/-- `monthly.idxmin()`: the `lowest_month` KPI. -/
def lowest_month (l : List Txn) : Option String :=
  (idxminP (monthlyAgg l)).map Prod.fst

/-- The `monthly_totals` list of the summary. -/
def monthly_totals (l : List Txn) : List (String × ℚ) :=
  monthlyAgg l

/-! ## Shares (`main`, lines 243–244) with float special values -/

/-- Float division `a / t` of a group sum by the grand total: dividing by
a zero total yields `NaN` (0/0) or a signed infinity, never an exception. -/
def pdDivQ (a t : ℚ) : PdFloat :=
  if t = 0 then (if a = 0 then .nan else if 0 < a then .inf else .neginf)
  else .finite (a / t)

/-- Multiplication by the positive literal `100`. -/
def pdTimes100 : PdFloat → PdFloat
  | .finite q => .finite (q * 100)
  | x => x

/-- Round half to even (the rounding of Python / numpy `round`). -/
def roundHalfEven (q : ℚ) : ℤ :=
  if q - ⌊q⌋ < 1 / 2 then ⌊q⌋
  else if 1 / 2 < q - ⌊q⌋ then ⌊q⌋ + 1
  else if ⌊q⌋ % 2 = 0 then ⌊q⌋ else ⌊q⌋ + 1

/-- `.round(1)`: round to one decimal place. -/
def round1 (q : ℚ) : ℚ :=
  (roundHalfEven (10 * q) : ℚ) / 10

/-- `.round(1)` on a pandas value: the special values pass through. -/
def pdRound1 : PdFloat → PdFloat
  | .finite q => .finite (round1 q)
  | x => x

/-- `(group_sum / total * 100).round(1)`: one `share_pct` value. -/
def sharePct (v total : ℚ) : PdFloat :=
  pdRound1 (pdTimes100 (pdDivQ v total))

/-- `type_share` attached to each group of `type_tot`: the `share_pct`
column of `by_type`. -/
def sharesByType (l : List Txn) : List (String × PdFloat) :=
  (typeAgg l).map fun p => (p.1, sharePct p.2 (totalAmt l))

/-- The `by_type` list of the summary: `(type, amount, share_pct)`. -/
def by_type (l : List Txn) : List (String × ℚ × PdFloat) :=
  (typeAgg l).map fun p => (p.1, (p.2, sharePct p.2 (totalAmt l)))

/-- The `by_payment` list of the summary: `(payment_type, amount, share_pct)`. -/
def by_payment (l : List Txn) : List (String × ℚ × PdFloat) :=
  (payAgg l).map fun p => (p.1, (p.2, sharePct p.2 (totalAmt l)))

/-- Shorthand for a transaction used in concrete test ledgers. -/
def mkTxn (mo ty pay mer ar : String) (amt : ℚ) : Txn :=
  { month := mo, ttype := ty, payment := pay, merchant := mer, area := ar, amount := amt }

/-- The spec-stated tie-break for `lowest_month` taken literally: scan
the months in descending chronological order and report the first month
attaining the minimum.  Stated from the words of the spec (§4.4) for comparison
with the code value `lowest_month`. -/
def lowestMonthSpecDesc (l : List Txn) : Option String :=
  (idxminP (monthlyAgg l).reverse).map Prod.fst

/-- Two months tied at 5: tie ledger for the month KPIs. -/
def exC2 : List Txn :=
  [mkTxn "2024-01" "Food" "Cash" "Shell" "X" 5,
   mkTxn "2024-02" "Food" "Cash" "Shell" "X" 5]

/-- Two types tied at 5, type `A` seen first in the ledger. -/
def exC3 : List Txn :=
  [mkTxn "2024-01" "A" "Cash" "SA" "XA" 5,
   mkTxn "2024-01" "B" "MPesa" "SB" "XB" 5]

/-- A ledger whose only amount is 0: zero grand total. -/
def exC4zero : List Txn :=
  [mkTxn "2024-01" "Food" "Cash" "S" "X" 0]

/-- Amounts +100 and −100: nonzero groups, zero grand total. -/
def exC4mixed : List Txn :=
  [mkTxn "2024-01" "A" "Cash" "S" "X" 100,
   mkTxn "2024-01" "B" "Cash" "S" "X" (-100)]

/-- No rule of the ordered brand-rule list of `parse_location` fires on
the (already-normalized) string `s`: every prefix test is false. -/
def noBrandMatch (s : String) : Prop :=
  lstartsWith (strLower s) "shell" = false ∧
  lstartsWith (strLower s) "total" = false ∧
  lstartsWith (strLower s) "home" = false ∧
  lstartsWith (strLower s) "love dale butchery" = false ∧
  lstartsWith (strLower s) "love dale" = false ∧
  lstartsWith (strLower s) "dupoint" = false ∧
  lstartsWith (strLower s) "dupont" = false ∧
  lstartsWith (strLower s) "greenview" = false ∧
  lstartsWith (strLower s) "fish pit hub" = false ∧
  lstartsWith (strLower s) "junction pizza inn" = false ∧
  lstartsWith (strLower s) "junction mall" = false ∧
  lstartsWith (strLower s) "leofresh" = false ∧
  lstartsWith (strLower s) "nairobi chapel" = false ∧
  lstartsWith (strLower s) "karura forest" = false ∧
  lstartsWith (strLower s) "rockwell" = false ∧
  lstartsWith (strLower s) "kisii" = false ∧
  lstartsWith (strLower s) "naivasha road" = false

/-- A raw row whose `Amount` cell holds non-numeric text. -/
def exRowText : RawRow :=
  { month := "2024-01"
    rtype := "Food"
    payment := "Cash"
    location := some "Shell Dagoretti"
    amountCell := PdCell.text "abc" }

/-! ## General lemmas about the aggregation pipeline -/

/-- Strict key order between aggregation entries. -/
def keyLt (a b : String × ℚ) : Prop := strLtB a.1 b.1 = true

theorem strLtB_trans {a b c : String} (h1 : strLtB a b = true) (h2 : strLtB b c = true) :
    strLtB a c = true :=
  lexLtCh_trans h1 h2

theorem strLtB_connex {a b : String} (h1 : strLtB a b = false) (h2 : strLtB b a = false) :
    a = b := by
  have h3 := lexLtCh_connex _ _ h1 h2
  exact congrArg String.mk h3

theorem strLtB_irrefl (a : String) : strLtB a a = false :=
  lexLtCh_irrefl _

theorem strLtB_asymm {a b : String} (h : strLtB a b = true) : strLtB b a = false :=
  lexLtCh_asymm h

theorem strLeB_refl (a : String) : strLeB a a = true := by
  unfold strLeB
  rw [strLtB_irrefl]
  rfl

theorem strLeB_of_strLtB {a b : String} (h : strLtB a b = true) : strLeB a b = true := by
  unfold strLeB
  rw [strLtB_asymm h]
  rfl

theorem mem_insertGrouped_key {k : String} {v : ℚ} :
    ∀ {acc : List (String × ℚ)} {y : String × ℚ}, y ∈ insertGrouped k v acc →
      y.1 = k ∨ ∃ z ∈ acc, y.1 = z.1 := by
  intro acc
  induction acc with
  | nil =>
    intro y hy
    simp [insertGrouped] at hy
    exact Or.inl (by rw [hy])
  | cons p rest ih =>
    intro y hy
    rw [show insertGrouped k v (p :: rest) =
        (if k = p.1 then (p.1, p.2 + v) :: rest
         else if strLtB k p.1 then (k, v) :: p :: rest
         else p :: insertGrouped k v rest) from rfl] at hy
    by_cases h1 : k = p.1
    · rw [if_pos h1] at hy
      rcases List.mem_cons.mp hy with h | h
      · exact Or.inr ⟨p, List.mem_cons_self _ _, by rw [h]⟩
      · exact Or.inr ⟨y, List.mem_cons_of_mem _ h, rfl⟩
    · rw [if_neg h1] at hy
      by_cases h2 : strLtB k p.1
      · rw [if_pos h2] at hy
        rcases List.mem_cons.mp hy with h | h
        · exact Or.inl (by rw [h])
        · exact Or.inr ⟨y, h, rfl⟩
      · rw [if_neg h2] at hy
        rcases List.mem_cons.mp hy with h | h
        · exact Or.inr ⟨p, List.mem_cons_self _ _, by rw [h]⟩
        · rcases ih h with h3 | ⟨z, hz, h3⟩
          · exact Or.inl h3
          · exact Or.inr ⟨z, List.mem_cons_of_mem _ hz, h3⟩

theorem insertGrouped_pairwise {k : String} {v : ℚ} :
    ∀ {acc : List (String × ℚ)}, acc.Pairwise keyLt → (insertGrouped k v acc).Pairwise keyLt := by
  intro acc
  induction acc with
  | nil =>
    intro _
    simp [insertGrouped, keyLt]
  | cons p rest ih =>
    intro h
    rw [List.pairwise_cons] at h
    rw [show insertGrouped k v (p :: rest) =
        (if k = p.1 then (p.1, p.2 + v) :: rest
         else if strLtB k p.1 then (k, v) :: p :: rest
         else p :: insertGrouped k v rest) from rfl]
    by_cases h1 : k = p.1
    · rw [if_pos h1, List.pairwise_cons]
      exact ⟨fun y hy => h.1 y hy, h.2⟩
    · rw [if_neg h1]
      by_cases h2 : strLtB k p.1
      · rw [if_pos h2, List.pairwise_cons, List.pairwise_cons]
        refine ⟨?_, h.1, h.2⟩
        intro y hy
        rcases List.mem_cons.mp hy with h3 | h3
        · rw [h3]
          exact h2
        · exact strLtB_trans h2 (h.1 y h3)
      · rw [if_neg h2, List.pairwise_cons]
        refine ⟨?_, ih h.2⟩
        intro y hy
        have hpk : strLtB p.1 k = true := by
          cases h3 : strLtB p.1 k with
          | true => rfl
          | false =>
            exact absurd (strLtB_connex (Bool.of_not_eq_true h2) h3) h1
        rcases mem_insertGrouped_key hy with h3 | ⟨z, hz, h3⟩
        · unfold keyLt
          rw [h3]
          exact hpk
        · unfold keyLt
          rw [h3]
          exact h.1 z hz

theorem groupbySum_pairwise (ps : List (String × ℚ)) : (groupbySum ps).Pairwise keyLt := by
  unfold groupbySum
  suffices h : ∀ (qs : List (String × ℚ)) (acc : List (String × ℚ)), acc.Pairwise keyLt →
      (qs.foldl (fun acc p => insertGrouped p.1 p.2 acc) acc).Pairwise keyLt by
    exact h ps [] List.Pairwise.nil
  intro qs
  induction qs with
  | nil => intro acc h; exact h
  | cons q qs ih =>
    intro acc h
    exact ih _ (insertGrouped_pairwise h)

/-- Total of the summed amounts of an aggregation result. -/
def sumVals (xs : List (String × ℚ)) : ℚ :=
  (xs.map Prod.snd).sum

theorem sumVals_insertGrouped (k : String) (v : ℚ) :
    ∀ acc : List (String × ℚ), sumVals (insertGrouped k v acc) = sumVals acc + v := by
  intro acc
  induction acc with
  | nil => simp [insertGrouped, sumVals]
  | cons p rest ih =>
    rw [show insertGrouped k v (p :: rest) =
        (if k = p.1 then (p.1, p.2 + v) :: rest
         else if strLtB k p.1 then (k, v) :: p :: rest
         else p :: insertGrouped k v rest) from rfl]
    by_cases h1 : k = p.1
    · rw [if_pos h1]
      simp [sumVals]
      ring
    · rw [if_neg h1]
      by_cases h2 : strLtB k p.1
      · rw [if_pos h2]
        simp [sumVals]
        ring
      · rw [if_neg h2]
        simp only [sumVals, List.map_cons, List.sum_cons] at ih ⊢
        rw [ih]
        ring

theorem sumVals_groupbySum (ps : List (String × ℚ)) :
    sumVals (groupbySum ps) = (ps.map Prod.snd).sum := by
  unfold groupbySum
  suffices h : ∀ (qs : List (String × ℚ)) (acc : List (String × ℚ)),
      sumVals (qs.foldl (fun acc p => insertGrouped p.1 p.2 acc) acc) =
        sumVals acc + (qs.map Prod.snd).sum by
    have h2 := h ps []
    simpa [sumVals] using h2
  intro qs
  induction qs with
  | nil => intro acc; simp
  | cons q qs ih =>
    intro acc
    simp only [List.foldl_cons, List.map_cons, List.sum_cons]
    rw [ih, sumVals_insertGrouped]
    ring

theorem sumVals_perm {xs ys : List (String × ℚ)} (h : xs.Perm ys) : sumVals xs = sumVals ys :=
  (h.map Prod.snd).sum_eq

theorem sumVals_sortValuesDesc (xs : List (String × ℚ)) :
    sumVals (sortValuesDesc xs) = sumVals xs := by
  unfold sortValuesDesc
  rw [show sumVals (List.insertionSort byVal xs).reverse =
      sumVals (List.insertionSort byVal xs) from sumVals_perm (List.reverse_perm _)]
  exact sumVals_perm (List.perm_insertionSort byVal xs)

theorem sumVals_sortIndexAsc (xs : List (String × ℚ)) :
    sumVals (sortIndexAsc xs) = sumVals xs :=
  sumVals_perm (List.perm_insertionSort byKey xs)

theorem sortValuesDesc_pairwise (xs : List (String × ℚ)) :
    (sortValuesDesc xs).Pairwise (fun a b => b.2 ≤ a.2) := by
  unfold sortValuesDesc
  rw [List.pairwise_reverse]
  exact List.sorted_insertionSort byVal xs

theorem insertionSort_tie_key {xs : List (String × ℚ)} (h : xs.Pairwise keyLt) :
    (List.insertionSort byVal xs).Pairwise (fun a b => a.2 = b.2 → keyLt a b) := by
  induction xs with
  | nil => simp
  | cons x xs ih =>
    rw [List.pairwise_cons] at h
    have hS := ih h.2
    have hxS : ∀ y ∈ List.insertionSort byVal xs, keyLt x y := by
      intro y hy
      exact h.1 y ((List.mem_insertionSort byVal).mp hy)
    rw [List.insertionSort, List.orderedInsert_eq_take_drop, List.pairwise_append]
    refine ⟨hS.sublist (List.takeWhile_sublist _), ?_, ?_⟩
    · rw [List.pairwise_cons]
      refine ⟨?_, hS.sublist (List.dropWhile_sublist _)⟩
      intro y hy _
      exact hxS y ((List.dropWhile_sublist _).subset hy)
    · intro a ha b hb
      rcases List.mem_cons.mp hb with hbx | hbd
      · intro hv
        exfalso
        have hpa := List.mem_takeWhile_imp ha
        rw [decide_eq_true_eq] at hpa
        apply hpa
        unfold byVal
        rw [hbx] at hv
        rw [hv]
      · have hS2 := hS
        rw [← List.takeWhile_append_dropWhile
          (p := fun b => decide (¬ byVal x b)) (l := List.insertionSort byVal xs)] at hS2
        rw [List.pairwise_append] at hS2
        exact hS2.2.2 a ha b hbd

theorem sortValuesDesc_tie_key {xs : List (String × ℚ)} (h : xs.Pairwise keyLt) :
    (sortValuesDesc xs).Pairwise (fun a b => a.2 = b.2 → keyLt b a) := by
  unfold sortValuesDesc
  rw [List.pairwise_reverse]
  exact (insertionSort_tie_key h).imp (fun hq hv => hq hv.symm)

theorem sortIndexAsc_eq_self {xs : List (String × ℚ)} (h : xs.Pairwise keyLt) :
    sortIndexAsc xs = xs := by
  unfold sortIndexAsc
  apply List.Sorted.insertionSort_eq
  exact h.imp (fun hk => strLeB_of_strLtB hk)

theorem monthlyAgg_eq (l : List Txn) : monthlyAgg l = groupbySum (pairsBy Txn.month l) := by
  unfold monthlyAgg
  exact sortIndexAsc_eq_self (groupbySum_pairwise _)

theorem monthlyAgg_pairwise (l : List Txn) : (monthlyAgg l).Pairwise keyLt := by
  rw [monthlyAgg_eq]
  exact groupbySum_pairwise _

theorem idxmaxP_eq_none : ∀ {xs : List (String × ℚ)}, idxmaxP xs = none → xs = [] := by
  intro xs h
  cases xs with
  | nil => rfl
  | cons x rest =>
    rw [show idxmaxP (x :: rest) = (match idxmaxP rest with
        | none => some x
        | some b => if x.2 < b.2 then some b else some x) from rfl] at h
    cases hrest : idxmaxP rest with
    | none => rw [hrest] at h; exact Option.noConfusion h
    | some b =>
      rw [hrest] at h
      replace h : (if x.2 < b.2 then some b else some x) = none := h
      by_cases hlt : x.2 < b.2
      · rw [if_pos hlt] at h; exact Option.noConfusion h
      · rw [if_neg hlt] at h; exact Option.noConfusion h

theorem idxminP_eq_none : ∀ {xs : List (String × ℚ)}, idxminP xs = none → xs = [] := by
  intro xs h
  cases xs with
  | nil => rfl
  | cons x rest =>
    rw [show idxminP (x :: rest) = (match idxminP rest with
        | none => some x
        | some b => if b.2 < x.2 then some b else some x) from rfl] at h
    cases hrest : idxminP rest with
    | none => rw [hrest] at h; exact Option.noConfusion h
    | some b =>
      rw [hrest] at h
      replace h : (if b.2 < x.2 then some b else some x) = none := h
      by_cases hlt : b.2 < x.2
      · rw [if_pos hlt] at h; exact Option.noConfusion h
      · rw [if_neg hlt] at h; exact Option.noConfusion h

theorem idxmaxP_spec :
    ∀ {xs : List (String × ℚ)}, xs.Pairwise keyLt → ∀ {k : String} {v : ℚ},
      idxmaxP xs = some (k, v) →
      (k, v) ∈ xs ∧ ∀ p ∈ xs, p.2 ≤ v ∧ (p.2 = v → strLeB k p.1 = true) := by
  intro xs
  induction xs with
  | nil => intro _ k v h; exact Option.noConfusion h
  | cons x rest ih =>
    intro hp k v h
    rw [List.pairwise_cons] at hp
    rw [show idxmaxP (x :: rest) = (match idxmaxP rest with
        | none => some x
        | some b => if x.2 < b.2 then some b else some x) from rfl] at h
    cases hrest : idxmaxP rest with
    | none =>
      rw [hrest] at h
      have hre : rest = [] := idxmaxP_eq_none hrest
      have hx : x = (k, v) := Option.some.inj h
      subst hre
      subst hx
      refine ⟨List.mem_singleton.mpr rfl, ?_⟩
      intro p hpmem
      rw [List.mem_singleton] at hpmem
      subst hpmem
      exact ⟨le_refl _, fun _ => strLeB_refl _⟩
    | some b =>
      obtain ⟨bk, bv⟩ := b
      rw [hrest] at h
      replace h : (if x.2 < bv then some (bk, bv) else some x) = some (k, v) := h
      by_cases hlt : x.2 < bv
      · rw [if_pos hlt] at h
        have hb : ((bk, bv) : String × ℚ) = (k, v) := Option.some.inj h
        rw [hb] at hrest
        obtain ⟨hmem, hall⟩ := ih hp.2 hrest
        have hv_eq : bv = v := congrArg Prod.snd hb
        refine ⟨List.mem_cons_of_mem _ hmem, ?_⟩
        intro p hpmem
        rcases List.mem_cons.mp hpmem with hpx | hpr
        · subst hpx
          rw [hv_eq] at hlt
          refine ⟨le_of_lt hlt, ?_⟩
          intro hveq
          rw [hveq] at hlt
          exact absurd hlt (lt_irrefl _)
        · exact hall p hpr
      · rw [if_neg hlt] at h
        have hx : x = (k, v) := Option.some.inj h
        obtain ⟨hmem, hall⟩ := ih hp.2 hrest
        refine ⟨by rw [← hx]; exact List.mem_cons_self _ _, ?_⟩
        intro p hpmem
        rcases List.mem_cons.mp hpmem with hpx | hpr
        · subst hpx
          rw [hx]
          exact ⟨le_refl _, fun _ => strLeB_refl _⟩
        · have hple : p.2 ≤ bv := (hall p hpr).1
          have hble : bv ≤ v := by
            rw [← show x.2 = v from congrArg Prod.snd hx]
            exact not_lt.mp hlt
          refine ⟨le_trans hple hble, ?_⟩
          intro _
          have hk : strLtB x.1 p.1 = true := hp.1 p hpr
          rw [show x.1 = k from congrArg Prod.fst hx] at hk
          exact strLeB_of_strLtB hk

theorem idxminP_spec :
    ∀ {xs : List (String × ℚ)}, xs.Pairwise keyLt → ∀ {k : String} {v : ℚ},
      idxminP xs = some (k, v) →
      (k, v) ∈ xs ∧ ∀ p ∈ xs, v ≤ p.2 ∧ (p.2 = v → strLeB k p.1 = true) := by
  intro xs
  induction xs with
  | nil => intro _ k v h; exact Option.noConfusion h
  | cons x rest ih =>
    intro hp k v h
    rw [List.pairwise_cons] at hp
    rw [show idxminP (x :: rest) = (match idxminP rest with
        | none => some x
        | some b => if b.2 < x.2 then some b else some x) from rfl] at h
    cases hrest : idxminP rest with
    | none =>
      rw [hrest] at h
      have hre : rest = [] := idxminP_eq_none hrest
      have hx : x = (k, v) := Option.some.inj h
      subst hre
      subst hx
      refine ⟨List.mem_singleton.mpr rfl, ?_⟩
      intro p hpmem
      rw [List.mem_singleton] at hpmem
      subst hpmem
      exact ⟨le_refl _, fun _ => strLeB_refl _⟩
    | some b =>
      obtain ⟨bk, bv⟩ := b
      rw [hrest] at h
      replace h : (if bv < x.2 then some (bk, bv) else some x) = some (k, v) := h
      by_cases hlt : bv < x.2
      · rw [if_pos hlt] at h
        have hb : ((bk, bv) : String × ℚ) = (k, v) := Option.some.inj h
        rw [hb] at hrest
        obtain ⟨hmem, hall⟩ := ih hp.2 hrest
        have hv_eq : bv = v := congrArg Prod.snd hb
        refine ⟨List.mem_cons_of_mem _ hmem, ?_⟩
        intro p hpmem
        rcases List.mem_cons.mp hpmem with hpx | hpr
        · subst hpx
          rw [hv_eq] at hlt
          refine ⟨le_of_lt hlt, ?_⟩
          intro hveq
          rw [hveq] at hlt
          exact absurd hlt (lt_irrefl _)
        · exact hall p hpr
      · rw [if_neg hlt] at h
        have hx : x = (k, v) := Option.some.inj h
        obtain ⟨hmem, hall⟩ := ih hp.2 hrest
        refine ⟨by rw [← hx]; exact List.mem_cons_self _ _, ?_⟩
        intro p hpmem
        rcases List.mem_cons.mp hpmem with hpx | hpr
        · subst hpx
          rw [hx]
          exact ⟨le_refl _, fun _ => strLeB_refl _⟩
        · have hple : bv ≤ p.2 := (hall p hpr).1
          have hble : v ≤ bv := by
            rw [← show x.2 = v from congrArg Prod.snd hx]
            exact not_lt.mp hlt
          refine ⟨le_trans hble hple, ?_⟩
          intro _
          have hk : strLtB x.1 p.1 = true := hp.1 p hpr
          rw [show x.1 = k from congrArg Prod.fst hx] at hk
          exact strLeB_of_strLtB hk

/-! ## Claim theorems -/

theorem sumVals_agg (key : Txn → String) (l : List Txn) :
    sumVals (sortValuesDesc (groupbySum (pairsBy key l))) = totalAmt l := by
  rw [sumVals_sortValuesDesc, sumVals_groupbySum]
  unfold pairsBy totalAmt
  rw [List.map_map]
  rfl

/-- **C2** (counterexample): with the two months 2024-01 and 2024-02 tied
at total 5, the code value `lowest_month` (`monthly.idxmin()`) reports the
first tied month in *ascending* chronological order, 2024-01, whereas the
descending-order (claimed) tie-break would report 2024-02. -/
theorem claim_C2_counterexample :
    lowest_month exC2 = some "2024-01" ∧
    lowestMonthSpecDesc exC2 = some "2024-02" ∧
    lowest_month exC2 ≠ lowestMonthSpecDesc exC2 := by
  refine ⟨?_, ?_, ?_⟩ <;> with_unfolding_all decide

/-- **C2** (amended): in the KPI block both `highest_month` and
`lowest_month` break ties the same way: the reported month attains the
extremum of the chronologically sorted monthly totals, and on ties it is
the first such month in *ascending* chronological order (its label is ≤
the label of every tied month). -/
theorem claim_C2_amended (l : List Txn) (k : String) (v : ℚ) (p : String × ℚ)
    (hp : p ∈ monthlyAgg l) :
    (idxmaxP (monthlyAgg l) = some (k, v) →
      (k, v) ∈ monthlyAgg l ∧ p.2 ≤ v ∧ (p.2 = v → strLeB k p.1 = true)) ∧
    (idxminP (monthlyAgg l) = some (k, v) →
      (k, v) ∈ monthlyAgg l ∧ v ≤ p.2 ∧ (p.2 = v → strLeB k p.1 = true)) := by
  constructor
  · intro h
    obtain ⟨hm, hall⟩ := idxmaxP_spec (monthlyAgg_pairwise l) h
    exact ⟨hm, (hall p hp).1, (hall p hp).2⟩
  · intro h
    obtain ⟨hm, hall⟩ := idxminP_spec (monthlyAgg_pairwise l) h
    exact ⟨hm, (hall p hp).1, (hall p hp).2⟩

theorem claim_C2_amended_witness :
    (("2024-02", (5 : ℚ)) ∈ monthlyAgg exC2) ∧
    (idxminP (monthlyAgg exC2) = some ("2024-01", 5) →
      (("2024-01", (5 : ℚ)) ∈ monthlyAgg exC2 ∧ (5 : ℚ) ≤ 5 ∧
        ((5 : ℚ) = 5 → strLeB "2024-01" "2024-02" = true))) :=
  ⟨by with_unfolding_all decide,
   (claim_C2_amended exC2 "2024-01" 5 ("2024-02", 5) (by with_unfolding_all decide)).2⟩

/-- **C3** (counterexample): type `A` is seen before type `B` in the
ledger and their sums are equal, yet the aggregation result lists `B`
before `A` — the pandas groupby pre-sorts keys ascending and the
descending value sort reverses the tied run, so first-seen order is not
preserved. -/
theorem claim_C3_counterexample :
    exC3.map Txn.ttype = ["A", "B"] ∧ typeAgg exC3 = [("B", 5), ("A", 5)] := by
  constructor <;> with_unfolding_all decide

/-- **C3** (amended): for every descending-by-sum dimension (type,
payment method, merchant, area), tie order is not first-seen ledger
order — the groupby pre-sorts keys ascending, discarding first-seen
order.  When the dimension has at most 15 groups, so that the numpy
introsort behind `sort_values` is plain stable insertion sort, groups
with exactly equal sums appear in *descending lexicographic key order*
(the reverse of the ascending key order of the groupby); on larger
dimensions the tie order is implementation-defined by the unstable
introsort, so no order is asserted there. -/
theorem claim_C3_amended (l : List Txn) :
    ((groupbySum (pairsBy Txn.ttype l)).length ≤ 15 →
      (typeAgg l).Pairwise (fun a b => a.2 = b.2 → strLtB b.1 a.1 = true)) ∧
    ((groupbySum (pairsBy Txn.payment l)).length ≤ 15 →
      (payAgg l).Pairwise (fun a b => a.2 = b.2 → strLtB b.1 a.1 = true)) ∧
    ((groupbySum (pairsBy Txn.merchant l)).length ≤ 15 →
      (merchAgg l).Pairwise (fun a b => a.2 = b.2 → strLtB b.1 a.1 = true)) ∧
    ((groupbySum (pairsBy Txn.area l)).length ≤ 15 →
      (areaAgg l).Pairwise (fun a b => a.2 = b.2 → strLtB b.1 a.1 = true)) := by
  refine ⟨?_, ?_, ?_, ?_⟩ <;>
    exact fun _ => sortValuesDesc_tie_key (groupbySum_pairwise _)

theorem claim_C3_amended_witness :
    (groupbySum (pairsBy Txn.ttype exC3)).length ≤ 15 ∧
    (typeAgg exC3).Pairwise (fun a b => a.2 = b.2 → strLtB b.1 a.1 = true) :=
  ⟨by with_unfolding_all decide,
   (claim_C3_amended exC3).1 (by with_unfolding_all decide)⟩

/-- **C5**: sum conservation — for every grouping dimension of the
summary (month, type, payment method, merchant, area) the sum of the
per-group sums equals the grand total of all transaction amounts, for
every ledger (exact in the rational model of the amounts). -/
theorem claim_C5 (l : List Txn) :
    sumVals (monthly_totals l) = totalAmt l ∧
    sumVals (typeAgg l) = totalAmt l ∧
    sumVals (payAgg l) = totalAmt l ∧
    sumVals (merchAgg l) = totalAmt l ∧
    sumVals (areaAgg l) = totalAmt l := by
  refine ⟨?_, sumVals_agg _ l, sumVals_agg _ l, sumVals_agg _ l, sumVals_agg _ l⟩
  unfold monthly_totals monthlyAgg
  rw [sumVals_sortIndexAsc, sumVals_groupbySum]
  unfold pairsBy totalAmt
  rw [List.map_map]
  rfl

/-- **C6**: in the exported summary, `by_type`, `by_payment`,
`top_merchants` and `top_areas` are non-increasing by amount, and
`monthly_totals` is strictly increasing by the `YYYY-MM` month label, for
every input ledger. -/
theorem claim_C6 (l : List Txn) :
    (by_type l).Pairwise (fun a b => b.2.1 ≤ a.2.1) ∧
    (by_payment l).Pairwise (fun a b => b.2.1 ≤ a.2.1) ∧
    (top_merchants l).Pairwise (fun a b => b.2 ≤ a.2) ∧
    (top_areas l).Pairwise (fun a b => b.2 ≤ a.2) ∧
    (monthly_totals l).Pairwise (fun a b => strLtB a.1 b.1 = true) := by
  refine ⟨?_, ?_, ?_, ?_, ?_⟩
  · unfold by_type
    rw [List.pairwise_map]
    exact sortValuesDesc_pairwise _
  · unfold by_payment
    rw [List.pairwise_map]
    exact sortValuesDesc_pairwise _
  · exact (sortValuesDesc_pairwise _).sublist (List.take_sublist _ _)
  · exact (sortValuesDesc_pairwise _).sublist (List.take_sublist _ _)
  · exact monthlyAgg_pairwise l

/-- **C4** (evaluation at the failing inputs): with a zero grand total
the share computation is executed unguarded; on an all-zero ledger every
`share_pct` is `NaN` (float `0/0`), and on a ledger whose amounts cancel
the shares are `+inf` and `-inf` — no explicitly chosen policy value is
emitted, and the emitted values are not even consistent with each other. -/
theorem claim_C4_eval :
    totalAmt exC4zero = 0 ∧ sharesByType exC4zero = [("Food", PdFloat.nan)] ∧
    totalAmt exC4mixed = 0 ∧
    sharesByType exC4mixed = [("A", PdFloat.inf), ("B", PdFloat.neginf)] := by
  refine ⟨?_, ?_, ?_, ?_⟩ <;> with_unfolding_all decide

/-! ## Parser lemmas and claims -/

theorem orUnknown_ne_empty (s : String) : orUnknown s ≠ "" := by
  unfold orUnknown
  split
  · decide
  · assumption

theorem orUnknown_of_ne {s : String} (h : s ≠ "") : orUnknown s = s := by
  unfold orUnknown
  rw [if_neg h]

theorem str_append_space_ne (a b : String) : a ++ " " ++ b ≠ "" := by
  intro hc
  have hlen := congrArg String.length hc
  rw [String.length_append, String.length_append] at hlen
  rw [show (" " : String).length = 1 from rfl, show ("" : String).length = 0 from rfl] at hlen
  omega

theorem joinWords_cons_ne_empty {w : String} (hw : w ≠ "") (rest : List String) :
    joinWords (w :: rest) ≠ "" := by
  cases rest with
  | nil => exact hw
  | cons r rs => exact str_append_space_ne w (joinWords (r :: rs))

theorem joinWords_take2_ne_empty {ws : List String} (h : 2 < ws.length) :
    joinWords (ws.take 2) ≠ "" := by
  cases ws with
  | nil => simp at h
  | cons w1 t1 =>
    cases t1 with
    | nil => simp at h
    | cons w2 t2 =>
      show joinWords [w1, w2] ≠ ""
      exact str_append_space_ne w1 w2

theorem tokWsAux_ne_nil :
    ∀ (cs : List Char) (cur : List Char), ∀ w ∈ tokWsAux cs cur, w ≠ [] := by
  intro cs
  induction cs with
  | nil =>
    intro cur w hw
    unfold tokWsAux at hw
    by_cases hc : cur.isEmpty
    · rw [if_pos hc] at hw
      simp at hw
    · rw [if_neg hc] at hw
      rw [List.mem_singleton] at hw
      subst hw
      intro hrev
      rw [List.reverse_eq_nil_iff] at hrev
      rw [hrev] at hc
      exact hc rfl
  | cons c cs ih =>
    intro cur w hw
    unfold tokWsAux at hw
    by_cases hsp : pyIsSpace c
    · rw [if_pos hsp] at hw
      by_cases hc : cur.isEmpty
      · rw [if_pos hc] at hw
        exact ih [] w hw
      · rw [if_neg hc] at hw
        rcases List.mem_cons.mp hw with h | h
        · subst h
          intro hrev
          rw [List.reverse_eq_nil_iff] at hrev
          rw [hrev] at hc
          exact hc rfl
        · exact ih [] w h
    · rw [if_neg hsp] at hw
      exact ih (c :: cur) w hw

theorem pyWords_mem_ne_empty {s : String} {w : String} (h : w ∈ pyWords s) : w ≠ "" := by
  unfold pyWords at h
  rw [List.mem_map] at h
  obtain ⟨l, hl, hw⟩ := h
  subst hw
  intro hc
  have hnil : l = [] := congrArg String.toList hc
  exact tokWsAux_ne_nil _ _ l hl hnil

theorem joinWords_drop2_ne_empty {s : String} (h : 2 < (pyWords s).length) :
    joinWords ((pyWords s).drop 2) ≠ "" := by
  cases hws : pyWords s with
  | nil => rw [hws] at h; simp at h
  | cons w1 t1 =>
    cases t1 with
    | nil => rw [hws] at h; simp at h
    | cons w2 t2 =>
      cases t2 with
      | nil => rw [hws] at h; simp at h
      | cons w3 t3 =>
        show joinWords (w3 :: t3) ≠ ""
        apply joinWords_cons_ne_empty
        apply pyWords_mem_ne_empty (s := s)
        rw [hws]
        simp

theorem ite_ne_empty {c : Prop} [inst : Decidable c] {a b : String}
    (ha : c → a ≠ "") (hb : ¬ c → b ≠ "") : (if c then a else b) ≠ "" := by
  cases inst with
  | isTrue h => exact ha h
  | isFalse h => exact hb h

theorem parse_area_ne_empty (loc : Option String) : (parse_location loc).2 ≠ "" := by
  cases loc with
  | none => decide
  | some raw =>
    simp only [parse_location, apply_ite Prod.snd]
    refine ite_ne_empty (fun _ => orUnknown_ne_empty _) (fun _ => ?_)
    refine ite_ne_empty (fun _ => orUnknown_ne_empty _) (fun _ => ?_)
    refine ite_ne_empty (fun _ => orUnknown_ne_empty _) (fun _ => ?_)
    refine ite_ne_empty (fun _ => orUnknown_ne_empty _) (fun _ => ?_)
    refine ite_ne_empty (fun _ => orUnknown_ne_empty _) (fun _ => ?_)
    refine ite_ne_empty (fun _ => orUnknown_ne_empty _) (fun _ => ?_)
    refine ite_ne_empty (fun _ => orUnknown_ne_empty _) (fun _ => ?_)
    refine ite_ne_empty (fun _ => by decide) (fun _ => ?_)
    refine ite_ne_empty (fun _ => by decide) (fun _ => ?_)
    refine ite_ne_empty (fun _ => orUnknown_ne_empty _) (fun _ => ?_)
    refine ite_ne_empty (fun _ => orUnknown_ne_empty _) (fun _ => ?_)
    refine ite_ne_empty (fun _ => by decide) (fun _ => ?_)
    refine ite_ne_empty (fun _ => orUnknown_ne_empty _) (fun _ => ?_)
    refine ite_ne_empty (fun _ => by decide) (fun _ => ?_)
    refine ite_ne_empty (fun _ => by decide) (fun _ => ?_)
    refine ite_ne_empty (fun _ => ?_) (fun _ => ?_)
    · rcases hsp : splitFirst (fun c => c = '_') (normalizeWs raw) with _ | ⟨l, r⟩ <;>
        simp [hsp, orUnknown_ne_empty]
    · exact ite_ne_empty (fun _ => by decide) (fun _ => orUnknown_ne_empty _)

theorem parse_merchant_ne_empty (raw : String) (h : normalizeWs raw ≠ "") :
    (parse_location (some raw)).1 ≠ "" := by
  simp only [parse_location, apply_ite Prod.fst]
  refine ite_ne_empty (fun _ => by decide) (fun _ => ?_)
  refine ite_ne_empty (fun _ => by decide) (fun _ => ?_)
  refine ite_ne_empty (fun _ => by decide) (fun _ => ?_)
  refine ite_ne_empty (fun _ => by decide) (fun _ => ?_)
  refine ite_ne_empty (fun _ => by decide) (fun _ => ?_)
  refine ite_ne_empty (fun _ => by decide) (fun _ => ?_)
  refine ite_ne_empty (fun _ => by decide) (fun _ => ?_)
  refine ite_ne_empty (fun _ => by decide) (fun _ => ?_)
  refine ite_ne_empty (fun _ => by decide) (fun _ => ?_)
  refine ite_ne_empty (fun _ => by decide) (fun _ => ?_)
  refine ite_ne_empty (fun _ => by decide) (fun _ => ?_)
  refine ite_ne_empty (fun _ => by decide) (fun _ => ?_)
  refine ite_ne_empty (fun _ => by decide) (fun _ => ?_)
  refine ite_ne_empty (fun _ => by decide) (fun _ => ?_)
  refine ite_ne_empty (fun _ => by decide) (fun _ => ?_)
  refine ite_ne_empty (fun _ => ?_) (fun _ => ?_)
  · rcases hsp : splitFirst (fun c => c = '_') (normalizeWs raw) with _ | ⟨l, r⟩ <;>
      simp [hsp, orUnknown_ne_empty, h]
  · refine ite_ne_empty (fun _ => h) (fun hlen => ?_)
    exact joinWords_take2_ne_empty (Nat.lt_of_not_le hlen)

/-- **C1** (counterexample): the empty string is not `NaN` in pandas, so
it falls through every brand rule and both fallbacks and parse returns
`("", "Unknown")` — the merchant component is the empty string, refuting
totality with nonempty components for every input. -/
theorem claim_C1_counterexample :
    parse_location (some "") = ("", "Unknown") ∧ (parse_location (some "")).1 = "" :=
  ⟨rfl, rfl⟩

/-- **C1** (amended): the area component is never empty and null input
yields `("Unknown", "Unknown")`; the merchant component is nonempty
whenever the whitespace-normalized input is nonempty, but an empty or
whitespace-only location string yields `("", "Unknown")`, whose merchant
component is the empty string rather than `"Unknown"`. -/
theorem claim_C1_amended (loc : Option String) :
    (parse_location loc).2 ≠ "" ∧
    (loc = none → parse_location loc = ("Unknown", "Unknown")) ∧
    (∀ s, loc = some s → normalizeWs s ≠ "" → (parse_location loc).1 ≠ "") ∧
    (∀ s, loc = some s → normalizeWs s = "" → parse_location loc = ("", "Unknown")) := by
  refine ⟨parse_area_ne_empty loc, ?_, ?_, ?_⟩
  · intro h
    subst h
    rfl
  · intro s hs hn
    subst hs
    exact parse_merchant_ne_empty s hn
  · intro s hs hn
    subst hs
    simp only [parse_location, hn]
    rfl

theorem claim_C1_amended_witness :
    (parse_location (some "Shell Dagoretti")).2 ≠ "" ∧
    (parse_location (some "Shell Dagoretti")).1 ≠ "" :=
  ⟨(claim_C1_amended (some "Shell Dagoretti")).1,
   (claim_C1_amended (some "Shell Dagoretti")).2.2.1 "Shell Dagoretti" rfl (by decide)⟩

/-- **C7**: `parse("Junction Pizza Inn")` is decided by the
`junction pizza inn` rule, which precedes the `junction mall` rule in the
ordered rule list, and returns the fixed pair
`("Pizza Inn", "Junction Mall")`. -/
theorem claim_C7 :
    parse_location (some "Junction Pizza Inn") = ("Pizza Inn", "Junction Mall") := rfl

/-- **C8**: on a whitespace-normalized string that matches no brand rule
and contains no underscore, parse returns the whole string as merchant
with area `"Unknown"` when there are at most 2 words, and otherwise the
first two words as merchant and the remaining words (joined by single
spaces) as area. -/
theorem claim_C8 (s : String) (h1 : normalizeWs s = s) (h2 : noBrandMatch s)
    (h3 : strContains s '_' = false) :
    ((pyWords s).length ≤ 2 → parse_location (some s) = (s, "Unknown")) ∧
    (2 < (pyWords s).length →
      parse_location (some s) =
        (joinWords ((pyWords s).take 2), joinWords ((pyWords s).drop 2))) := by
  obtain ⟨hb1, hb2, hb3, hb4, hb5, hb6, hb7, hb8, hb9, hb10, hb11, hb12, hb13, hb14,
    hb15, hb16, hb17⟩ := h2
  constructor
  · intro hlen
    simp [parse_location, h1, hb1, hb2, hb3, hb4, hb5, hb6, hb7, hb8, hb9, hb10, hb11,
      hb12, hb13, hb14, hb15, hb16, hb17, h3, hlen]
  · intro hlen
    have hlen2 : ¬ (pyWords s).length ≤ 2 := Nat.not_le.mpr hlen
    simp [parse_location, h1, hb1, hb2, hb3, hb4, hb5, hb6, hb7, hb8, hb9, hb10, hb11,
      hb12, hb13, hb14, hb15, hb16, hb17, h3, hlen2,
      orUnknown_of_ne (joinWords_drop2_ne_empty hlen)]

theorem claim_C8_witness :
    parse_location (some "Java House Westlands Branch") = ("Java House", "Westlands Branch") :=
  (claim_C8 "Java House Westlands Branch" (by decide)
    (by unfold noBrandMatch; decide) (by decide)).2 (by decide)

theorem isPrefixOf_cons_ex {a : Char} {as l : List Char}
    (h : List.isPrefixOf (a :: as) l = true) : ∃ t, l = a :: t := by
  cases l with
  | nil => simp [List.isPrefixOf] at h
  | cons b bs =>
    simp only [List.isPrefixOf, Bool.and_eq_true, beq_iff_eq] at h
    exact ⟨bs, by rw [h.1]⟩

theorem lstartsWith_head_dup {s : String}
    (h : lstartsWith s "dupoint" = true ∨ lstartsWith s "dupont" = true) :
    ∃ t, s.toList = 'd' :: t := by
  rcases h with h | h
  · exact isPrefixOf_cons_ex h
  · exact isPrefixOf_cons_ex h

theorem lstartsWith_false_of_head {s : String} {c : Char} {t : List Char}
    (hs : s.toList = c :: t) {p : String} {c2 : Char} {t2 : List Char}
    (hp : p.toList = c2 :: t2) (hne : (c2 == c) = false) :
    lstartsWith s p = false := by
  unfold lstartsWith
  rw [hs, hp]
  simp [List.isPrefixOf, hne]

/-- **C10**: every input whose normalized, lowercased form starts with
`dupoint` or `dupont` but does not match the
`(dupoint|dupont)\s+lounge\s*(.*)` pattern gets the fixed merchant label
`"Dupoint Lounge"` with area `"Unknown"` — it is decided by the
dupoint/dupont rule and never reaches the generic fallback. -/
theorem claim_C10 (raw : String)
    (hpre : lstartsWith (strLower (normalizeWs raw)) "dupoint" = true ∨
            lstartsWith (strLower (normalizeWs raw)) "dupont" = true)
    (hnm : dupRegexMatch (normalizeWs raw) = none) :
    parse_location (some raw) = ("Dupoint Lounge", "Unknown") := by
  obtain ⟨t, ht⟩ := lstartsWith_head_dup hpre
  have hsh := lstartsWith_false_of_head ht (p := "shell") rfl rfl
  have htot := lstartsWith_false_of_head ht (p := "total") rfl rfl
  have hhom := lstartsWith_false_of_head ht (p := "home") rfl rfl
  have hld1 := lstartsWith_false_of_head ht (p := "love dale butchery") rfl rfl
  have hld2 := lstartsWith_false_of_head ht (p := "love dale") rfl rfl
  have hcond : (lstartsWith (strLower (normalizeWs raw)) "dupoint" ||
      lstartsWith (strLower (normalizeWs raw)) "dupont") = true := by
    rcases hpre with h | h <;> simp [h]
  simp [parse_location, hsh, htot, hhom, hld1, hld2, hcond, hnm, orUnknown]

theorem claim_C10_witness :
    parse_location (some "Dupont Circle") = ("Dupoint Lounge", "Unknown") :=
  claim_C10 "Dupont Circle" (Or.inr (by decide)) (by decide)

theorem fillna0_ne_nan (v : PdFloat) : fillna0 v ≠ PdFloat.nan := by
  cases v with
  | finite q => exact fun h => PdFloat.noConfusion h
  | nan => exact fun h => PdFloat.noConfusion h
  | inf => exact fun h => PdFloat.noConfusion h
  | neginf => exact fun h => PdFloat.noConfusion h

/-- **C9** (counterexample): the Amount text `"inf"` is pandas-numeric —
`pd.to_numeric` parses it via `floatify` to `+inf`, which is not `NaN`
and therefore survives `.fillna(0)` unchanged: after enrichment that
amount is non-null but NOT finite, refuting the finiteness conjunct.
(Scientific notation is numeric too: `"1e2"` coerces to 100, not to the
substitute 0.) -/
theorem claim_C9_counterexample :
    to_numeric_coerce (PdCell.text "inf") = PdFloat.inf ∧
    fillna0 (to_numeric_coerce (PdCell.text "inf")) = PdFloat.inf ∧
    to_numeric_coerce (PdCell.text "-Infinity") = PdFloat.neginf ∧
    to_numeric_coerce (PdCell.text "1e2") = PdFloat.finite 100 := by
  refine ⟨?_, ?_, ?_, ?_⟩ <;> with_unfolding_all decide

/-- **C9** (amended): amount coercion is total and non-fatal — every row
survives enrichment; a non-numeric Amount cell (one `to_numeric` coerces
to `NaN`) is replaced by 0 by `.fillna(0)`, and afterwards no amount is
`NaN` (non-null).  Finiteness, however, is not guaranteed: an Amount
text parsing to a signed infinity passes `.fillna(0)` unchanged. -/
theorem claim_C9_amended (rows : List RawRow) (r : RawRow) (hr : r ∈ rows) :
    enrich r ∈ buildLedger rows ∧
    (to_numeric_coerce r.amountCell = PdFloat.nan →
      fillna0 (to_numeric_coerce r.amountCell) = PdFloat.finite 0 ∧
        (enrich r).amount = 0) ∧
    fillna0 (to_numeric_coerce r.amountCell) ≠ PdFloat.nan := by
  refine ⟨List.mem_map_of_mem enrich hr, ?_, fillna0_ne_nan _⟩
  intro hn
  constructor
  · rw [hn]
    rfl
  · show coerceAmount r.amountCell = 0
    unfold coerceAmount
    rw [hn]
    rfl

theorem claim_C9_amended_witness :
    enrich exRowText ∈ buildLedger [exRowText] ∧
    (to_numeric_coerce exRowText.amountCell = PdFloat.nan →
      fillna0 (to_numeric_coerce exRowText.amountCell) = PdFloat.finite 0 ∧
        (enrich exRowText).amount = 0) ∧
    fillna0 (to_numeric_coerce exRowText.amountCell) ≠ PdFloat.nan :=
  claim_C9_amended [exRowText] exRowText (List.mem_singleton.mpr rfl)
